import Mathlib

/-!
Verification of the pdf-say main-text extraction core (`extract_main_text` in
`pdf-say.py`).

The extraction pipeline is embedded shallowly:

* a `Token` is one word produced by the external tokenizer, carrying its text,
  an optional font size, and its `top` / `x0` page coordinates (modelled as
  rationals, since only comparisons, subtraction and absolute values of these
  coordinates occur in the code);
* `mostCommon` embeds `Counter(font_sizes).most_common(1)[0][0]`: the first
  listed element whose multiplicity is maximal;
* `filterMain`, `sortTokens`, `groupLinesGo`/`groupLines` and `pageText` embed
  the per-page filtering, positional sort, line assembly and page-text join;
  `sortTokens` is a stable insertion sort, matching the stable
  `list.sort(key=lambda w: (w['top'], w['x0']))` of the source;
* `findSub` embeds Python's `str.find` (smallest starting offset of a
  substring), `trimGo`/`trimRefs` embed the reference-section trimming loop,
  and `extract_main_text` is the whole pipeline over a list of pages.
-/

namespace PdfSay

/-- One positioned word token of a page, as consumed by `extract_main_text`:
the word text, an optional font size, and the `top` and `x0` coordinates. -/
structure Token where
  text : List Char
  size : Option ℚ
  top : ℚ
  x0 : ℚ
deriving DecidableEq

/-- Embeds Python's `full_text.find(keyword)`: the least offset at which
`pat` starts inside the list, or `none` when there is no occurrence. -/
def findSub (pat : List Char) : List Char → Option Nat
  | [] => if pat <+: ([] : List Char) then some 0 else none
  | c :: s => if pat <+: (c :: s) then some 0 else (findSub pat s).map (fun i => i + 1)

/-- The fixed, ordered, case-sensitive marker list `ref_keywords` of the source. -/
def refKeywords : List (List Char) :=
  ["References".toList, "Bibliography".toList, "REFERENCES".toList, "BIBLIOGRAPHY".toList]

/-- The trimming loop of `extract_main_text`: try each keyword in list order,
truncate at the first occurrence of the first keyword that is found anywhere
in the text, and stop; if no keyword is found, return the text unchanged. -/
def trimGo : List (List Char) → List Char → List Char
  | [], s => s
  | k :: ks, s =>
    match findSub k s with
    | some i => s.take i
    | none => trimGo ks s

/-- The Section Trimmer: the trimming loop run on `refKeywords`. -/
def trimRefs (s : List Char) : List Char :=
  trimGo refKeywords s

theorem findSub_eq_none_iff (pat s : List Char) :
    findSub pat s = none ↔ ∀ i : Nat, ¬ pat <+: s.drop i := by
  induction s with
  | nil =>
    by_cases hp : pat <+: ([] : List Char)
    · simp only [findSub, if_pos hp]
      simp only [List.drop_nil]
      exact ⟨fun h => by simp at h, fun h => absurd hp (h 0)⟩
    · simp only [findSub, if_neg hp]
      simp [hp]
  | cons c s ih =>
    by_cases hp : pat <+: (c :: s)
    · simp only [findSub, if_pos hp]
      constructor
      · intro h; simp at h
      · intro h; exact absurd hp (by simpa using h 0)
    · simp only [findSub, if_neg hp, Option.map_eq_none']
      rw [ih]
      constructor
      · intro h i
        cases i with
        | zero => simpa using hp
        | succ j => simpa [List.drop_succ_cons] using h j
      · intro h j
        simpa [List.drop_succ_cons] using h (j + 1)

theorem findSub_eq_some_iff (pat s : List Char) (i : Nat) :
    findSub pat s = some i ↔
      (pat <+: s.drop i ∧ ∀ j, j < i → ¬ pat <+: s.drop j) := by
  induction s generalizing i with
  | nil =>
    by_cases hp : pat <+: ([] : List Char)
    · simp only [findSub, if_pos hp, List.drop_nil]
      constructor
      · rintro h
        have hi : i = 0 := by simpa using h.symm
        subst hi
        exact ⟨hp, fun j hj => absurd hj (Nat.not_lt_zero j)⟩
      · rintro ⟨-, hmin⟩
        rcases Nat.eq_zero_or_pos i with hi | hi
        · subst hi; rfl
        · exact absurd hp (hmin 0 hi)
    · simp only [findSub, if_neg hp, List.drop_nil]
      exact ⟨fun h => by simp at h, fun h => absurd h.1 hp⟩
  | cons c s ih =>
    by_cases hp : pat <+: (c :: s)
    · simp only [findSub, if_pos hp]
      constructor
      · intro h
        have hi : i = 0 := by simpa using h.symm
        subst hi
        exact ⟨by simpa using hp, fun j hj => absurd hj (Nat.not_lt_zero j)⟩
      · rintro ⟨-, hmin⟩
        rcases Nat.eq_zero_or_pos i with hi | hi
        · subst hi; rfl
        · exact absurd (by simpa using hp) (hmin 0 hi)
    · simp only [findSub, if_neg hp, Option.map_eq_some']
      constructor
      · rintro ⟨j, hj, rfl⟩
        rcases (ih j).mp hj with ⟨hocc, hmin⟩
        refine ⟨by simpa [List.drop_succ_cons] using hocc, ?_⟩
        intro m hm
        cases m with
        | zero => simpa using hp
        | succ m' =>
          simpa [List.drop_succ_cons] using hmin m' (by omega)
      · rintro ⟨hocc, hmin⟩
        cases i with
        | zero => exact absurd (by simpa using hocc) hp
        | succ i' =>
          refine ⟨i', (ih i').mpr ⟨by simpa [List.drop_succ_cons] using hocc, ?_⟩, rfl⟩
          intro j hj
          simpa [List.drop_succ_cons] using hmin (j + 1) (by omega)

theorem findSub_none_of_prefix {pat t u : List Char} (hpre : u <+: t)
    (h : findSub pat t = none) : findSub pat u = none := by
  rw [findSub_eq_none_iff] at h ⊢
  intro i hp
  exact h i (hp.trans (hpre.drop i))

theorem findSub_take_eq_none {pat t : List Char} {i : Nat} (hne : pat ≠ [])
    (h : findSub pat t = some i) : findSub pat (t.take i) = none := by
  rw [findSub_eq_some_iff] at h
  rw [findSub_eq_none_iff]
  intro j hp
  by_cases hj : j < i
  · exact h.2 j hj (hp.trans (( List.take_prefix i t).drop j))
  · have hlen : (t.take i).length ≤ j := by
      have := List.length_take i t
      omega
    rw [List.drop_eq_nil_of_le hlen] at hp
    exact hne (List.prefix_nil.mp hp)

theorem trimGo_of_none {s : List Char} {ks : List (List Char)}
    (h : ∀ k ∈ ks, findSub k s = none) : trimGo ks s = s := by
  induction ks with
  | nil => rfl
  | cons k ks ih =>
    have hk : findSub k s = none := h k (by simp)
    simp only [trimGo, hk]
    exact ih (fun k' hk' => h k' (by simp [hk']))

theorem trimGo_first {s : List Char} (pre : List (List Char)) (k : List Char)
    (post : List (List Char)) (i : Nat)
    (hpre : ∀ k' ∈ pre, findSub k' s = none) (hk : findSub k s = some i) :
    trimGo (pre ++ k :: post) s = s.take i := by
  induction pre with
  | nil => simp [trimGo, hk]
  | cons p pre ih =>
    have hp : findSub p s = none := hpre p (by simp)
    simp only [List.cons_append, trimGo, hp]
    exact ih (fun k' hk' => hpre k' (by simp [hk']))

theorem trimGo_isPrefix (ks : List (List Char)) (s : List Char) : trimGo ks s <+: s := by
  induction ks with
  | nil => exact List.prefix_rfl
  | cons k ks ih =>
    simp only [trimGo]
    cases h : findSub k s with
    | some i => exact List.take_prefix i s
    | none => exact ih

theorem trimGo_cases (ks : List (List Char)) (s : List Char) :
    (trimGo ks s = s ∧ ∀ k ∈ ks, findSub k s = none) ∨
    (∃ pre k post i, ks = pre ++ k :: post ∧ (∀ k' ∈ pre, findSub k' s = none) ∧
      findSub k s = some i ∧ trimGo ks s = s.take i) := by
  induction ks with
  | nil => exact Or.inl ⟨rfl, by simp⟩
  | cons k ks ih =>
    cases hf : findSub k s with
    | some i =>
      exact Or.inr ⟨[], k, ks, i, rfl, by simp, hf, by simp [trimGo, hf]⟩
    | none =>
      rcases ih with ⟨he, hall⟩ | ⟨pre, k', post, i, hdec, hpre, hk', heq⟩
      · refine Or.inl ⟨by simp [trimGo, hf, he], ?_⟩
        intro k' hk'
        rcases List.mem_cons.mp hk' with rfl | hm
        · exact hf
        · exact hall k' hm
      · refine Or.inr ⟨k :: pre, k', post, i, by rw [hdec, List.cons_append], ?_, hk', ?_⟩
        · intro k'' hk''
          rcases List.mem_cons.mp hk'' with rfl | hm
          · exact hf
          · exact hpre k'' hm
        · simp only [trimGo, hf]
          exact heq

theorem refKeywords_ne_nil : ∀ k ∈ refKeywords, k ≠ [] := by decide

/-- C9: the Section Trimmer only ever removes a suffix — for every input text,
its output is a prefix of the input. -/
theorem trim_output_isPrefix (t : List Char) : trimRefs t <+: t :=
  trimGo_isPrefix refKeywords t

/-- C8: if no marker of `refKeywords` occurs anywhere in the text, the Section
Trimmer returns its input unchanged. -/
theorem trim_no_marker_unchanged (t : List Char)
    (h : ∀ k ∈ refKeywords, ∀ i : Nat, ¬ k <+: t.drop i) :
    trimRefs t = t :=
  trimGo_of_none (fun k hk => (findSub_eq_none_iff k t).mpr (h k hk))

/-- Witness for `trim_no_marker_unchanged` on the concrete marker-free text
"plain body text". -/
theorem trim_no_marker_unchanged_witness :
    (∀ k ∈ refKeywords, ∀ i : Nat, ¬ k <+: ("plain body text".toList).drop i) ∧
    trimRefs ("plain body text".toList) = "plain body text".toList := by
  have h : ∀ k ∈ refKeywords, ∀ i : Nat, ¬ k <+: ("plain body text".toList).drop i := by
    intro k hk
    have hnone : findSub k ("plain body text".toList) = none := by
      simp only [refKeywords, List.mem_cons, List.not_mem_nil, or_false] at hk
      rcases hk with rfl | rfl | rfl | rfl <;> decide
    exact (findSub_eq_none_iff k _).mp hnone
  exact ⟨h, trim_no_marker_unchanged _ h⟩

/-- C10: marker detection is plain substring search with no word-boundary
check: whenever "References" occurs in the text (first occurrence at offset
`i`, with no condition on the surrounding characters), the trimmer truncates
to the text strictly before offset `i`. -/
theorem trim_substring_triggers (t : List Char) (i : Nat)
    (h1 : "References".toList <+: t.drop i)
    (h2 : ∀ j, j < i → ¬ "References".toList <+: t.drop j) :
    trimRefs t = t.take i := by
  have hsome : findSub ("References".toList) t = some i :=
    (findSub_eq_some_iff _ _ _).mpr ⟨h1, h2⟩
  have hdec : refKeywords =
      [] ++ "References".toList ::
        ["Bibliography".toList, "REFERENCES".toList, "BIBLIOGRAPHY".toList] := rfl
  rw [trimRefs, hdec]
  exact trimGo_first [] _ _ i (by simp) hsome

/-- Witness for `trim_substring_triggers`: "References" embedded inside the
longer word "Cross-References" still triggers truncation at its offset 10. -/
theorem trim_substring_triggers_witness :
    ("References".toList <+: ("see Cross-References here".toList).drop 10 ∧
      (∀ j, j < 10 → ¬ "References".toList <+: ("see Cross-References here".toList).drop j)) ∧
    trimRefs ("see Cross-References here".toList) = ("see Cross-References here".toList).take 10 :=
  ⟨⟨by decide, by decide⟩, trim_substring_triggers _ 10 (by decide) (by decide)⟩

/-- Concrete text with "Bibliography" at offset 0 and "References" at offset 15,
exercising the list-order-versus-minimum-offset discrepancy of the trimmer. -/
def cexTrimText : List Char := "Bibliography a References".toList

/-- C1 counterexample: in `cexTrimText` the smallest marker offset is 0 (the
marker "Bibliography" starts the text), so the claimed minimum-offset rule
would return the empty text; the code instead truncates at the later offset of
"References", the first marker in list order that occurs. -/
theorem trim_min_offset_cex :
    findSub ("Bibliography".toList) cexTrimText = some 0 ∧
    trimRefs cexTrimText = "Bibliography a ".toList ∧
    trimRefs cexTrimText ≠ cexTrimText.take 0 := by
  exact ⟨by decide, by decide, by decide⟩

/-- C1 amended: the Section Trimmer truncates at the first occurrence of the
earliest marker in the fixed list order `refKeywords` that occurs anywhere in
the text (not at the minimum offset across all markers). -/
theorem trim_first_in_list_order (t : List Char) (pre post : List (List Char))
    (k : List Char) (i : Nat)
    (hdec : refKeywords = pre ++ k :: post)
    (hpre : ∀ k' ∈ pre, findSub k' t = none)
    (hk : findSub k t = some i) :
    trimRefs t = t.take i := by
  rw [trimRefs, hdec]
  exact trimGo_first pre k post i hpre hk

/-- Witness for `trim_first_in_list_order`: in "x Bibliography y" the marker
"References" is absent, so "Bibliography" (offset 2) decides the cut. -/
theorem trim_first_in_list_order_witness :
    (refKeywords = ["References".toList] ++ "Bibliography".toList ::
        ["REFERENCES".toList, "BIBLIOGRAPHY".toList] ∧
      (∀ k' ∈ ["References".toList], findSub k' ("x Bibliography y".toList) = none) ∧
      findSub ("Bibliography".toList) ("x Bibliography y".toList) = some 2) ∧
    trimRefs ("x Bibliography y".toList) = ("x Bibliography y".toList).take 2 :=
  ⟨⟨rfl, by decide, by decide⟩,
    trim_first_in_list_order ("x Bibliography y".toList) (["References".toList])
      (["REFERENCES".toList, "BIBLIOGRAPHY".toList]) ("Bibliography".toList) 2
      rfl (by decide) (by decide)⟩

/-- C4 counterexample: trimming `cexTrimText` once keeps the leading
"Bibliography" (the loop stops after finding "References"), so a second
application trims again — the trimmer is not idempotent. -/
theorem trim_idempotent_cex :
    trimRefs (trimRefs cexTrimText) ≠ trimRefs cexTrimText := by decide

/-- C4 amended: the trimmer is idempotent on every text in which at most one
distinct marker of `refKeywords` occurs (in particular on marker-free text);
in general a second application can trim further. -/
theorem trim_idempotent_of_unique_marker (t : List Char)
    (h : ∀ k1 ∈ refKeywords, ∀ k2 ∈ refKeywords,
      findSub k1 t ≠ none → findSub k2 t ≠ none → k1 = k2) :
    trimRefs (trimRefs t) = trimRefs t := by
  rcases trimGo_cases refKeywords t with ⟨he, -⟩ | ⟨pre, k, post, i, hdec, -, hk, heq⟩
  · have he' : trimRefs t = t := he
    rw [he']
    exact he'
  · have hkmem : k ∈ refKeywords := by rw [hdec]; simp
    have heq' : trimRefs t = t.take i := heq
    rw [heq']
    apply trimGo_of_none
    intro k' hk'
    by_cases hn : findSub k' t = none
    · exact findSub_none_of_prefix ( List.take_prefix i t) hn
    · have hkk : k' = k := h k' hk' k hkmem hn (by rw [hk]; exact Option.some_ne_none i)
      subst hkk
      exact findSub_take_eq_none (refKeywords_ne_nil k' hk') hk

/-- Witness for `trim_idempotent_of_unique_marker` on "Intro References End",
which contains only the single marker "References". -/
theorem trim_idempotent_of_unique_marker_witness :
    (∀ k1 ∈ refKeywords, ∀ k2 ∈ refKeywords,
      findSub k1 ("Intro References End".toList) ≠ none →
      findSub k2 ("Intro References End".toList) ≠ none → k1 = k2) ∧
    trimRefs (trimRefs ("Intro References End".toList)) =
      trimRefs ("Intro References End".toList) :=
  ⟨by decide, trim_idempotent_of_unique_marker _ (by decide)⟩

/-- The sort key order of `main_words.sort(key=lambda w: (w['top'], w['x0']))`:
lexicographic on the pair (top, x0). -/
def lexLE (a b : Token) : Prop :=
  a.top < b.top ∨ (a.top = b.top ∧ a.x0 ≤ b.x0)

instance decLexLE : DecidableRel lexLE := fun a b =>
  inferInstanceAs (Decidable (a.top < b.top ∨ (a.top = b.top ∧ a.x0 ≤ b.x0)))

/-- Stable insertion of a later token into the already-sorted earlier tokens:
the new token is placed after every token whose key is less than or equal, so
tokens with equal keys keep their input order, as under Python's stable sort. -/
def insertTok (w : Token) : List Token → List Token
  | [] => [w]
  | x :: xs => if lexLE x w then x :: insertTok w xs else w :: x :: xs

/-- Embeds the stable positional sort of `extract_main_text`. -/
def sortTokens (words : List Token) : List Token :=
  words.foldl (fun acc w => insertTok w acc) []

/-- Embeds `Counter(font_sizes).most_common(1)[0][0]`: the first listed size
whose multiplicity is maximal (`Counter.most_common` breaks count ties by
first-insertion order). Junk value 0 on the empty list, which the caller
guards against. -/
def mostCommon (sizes : List ℚ) : ℚ :=
  (sizes.find? (fun x => decide (∀ y ∈ sizes, sizes.count y ≤ sizes.count x))).getD 0

/-- Embeds `[w for w in words if float(w.get('size', 0)) == most_common_size]`:
a token without a stored size enters the comparison with the default 0. -/
def filterMain (words : List Token) (dom : ℚ) : List Token :=
  words.filter (fun w => decide (w.size.getD 0 = dom))

/-- Python's `abs` on the rational model of the coordinates, written as an
executable conditional; `ratAbs_eq_abs` identifies it with `|·|`. -/
def ratAbs (q : ℚ) : ℚ :=
  if q < 0 then -q else q

theorem ratAbs_eq_abs (q : ℚ) : ratAbs q = |q| := by
  rw [ratAbs]
  by_cases h : q < 0
  · rw [if_pos h, abs_of_neg h]
  · rw [if_neg h, abs_of_nonneg (not_lt.mp h)]

/-- The band test of the line-assembly loop:
`last_top is None or abs(word['top'] - last_top) <= 2`. -/
def sameBand (lastTop : Option ℚ) (w : Token) : Bool :=
  match lastTop with
  | none => true
  | some lt => decide (ratAbs (w.top - lt) ≤ 2)

/-- The line-assembly loop of `extract_main_text`, carrying the accumulated
`lines`, the `current_line` (kept as tokens rather than bare texts so that
line membership can be stated), and `last_top`. -/
def groupLinesGo : List Token → List (List Token) → List Token → Option ℚ → List (List Token)
  | [], lines, current, _ => if current = [] then lines else lines ++ [current]
  | w :: ws, lines, current, lastTop =>
    if sameBand lastTop w then
      groupLinesGo ws lines (current ++ [w]) (some w.top)
    else
      groupLinesGo ws (lines ++ [current]) [w] (some w.top)

/-- The line-assembly loop started from its initial state. -/
def groupLines (words : List Token) : List (List Token) :=
  groupLinesGo words [] [] none

/-- One page's reconstructed lines: dominant size, size filter, positional
sort, then line assembly (lines 25-49 of the source). -/
def pageLines (words : List Token) : List (List Token) :=
  groupLines (sortTokens (filterMain words (mostCommon (words.filterMap Token.size))))

/-- `' '.join(current_line)`: a line's token texts joined by single spaces. -/
def lineText (l : List Token) : List Char :=
  List.intercalate [' '] (l.map Token.text)

/-- One page's text contribution: `none` for a page with no words or no sized
words (the two `continue` branches), else `' '.join(lines)` over the
reconstructed lines. -/
def pageText (words : List Token) : Option (List Char) :=
  if words = [] then none
  else if words.filterMap Token.size = [] then none
  else some (List.intercalate [' '] ((pageLines words).map lineText))

/-- The whole `extract_main_text` pipeline on the token lists of the pages:
page texts joined by a blank line, then reference-section trimming. -/
def extract_main_text (pages : List (List Token)) : List Char :=
  trimRefs (List.intercalate ['\n', '\n'] (pages.filterMap pageText))

/-- Consecutive tokens of one line pass the 2-unit vertical band test. -/
def bandRel (a b : Token) : Prop := |b.top - a.top| ≤ 2

/-- Adjacent reconstructed lines are separated by a vertical jump of more
than 2 between the last token of one and the first token of the next. -/
def gapRel (l1 l2 : List Token) : Prop :=
  ∀ a b, l1.getLast? = some a → l2.head? = some b → 2 < |b.top - a.top|

theorem lexLE_top_le {a b : Token} (h : lexLE a b) : a.top ≤ b.top := by
  rcases h with h | ⟨h, -⟩
  · exact le_of_lt h
  · exact le_of_eq h

theorem lexLE_trans {a b c : Token} (h1 : lexLE a b) (h2 : lexLE b c) : lexLE a c := by
  rcases h1 with h1 | ⟨h1, h1x⟩ <;> rcases h2 with h2 | ⟨h2, h2x⟩
  · exact Or.inl (lt_trans h1 h2)
  · exact Or.inl (h2 ▸ h1)
  · exact Or.inl (h1 ▸ h2)
  · exact Or.inr ⟨h1.trans h2, h1x.trans h2x⟩

theorem lexLE_of_not_lexLE {a b : Token} (h : ¬ lexLE a b) : lexLE b a := by
  rcases lt_trichotomy b.top a.top with ht | ht | ht
  · exact Or.inl ht
  · rcases le_total b.x0 a.x0 with hx | hx
    · exact Or.inr ⟨ht, hx⟩
    · exact absurd (Or.inr ⟨ht.symm, hx⟩) h
  · exact absurd (Or.inl ht) h

theorem insertTok_perm (w : Token) (l : List Token) : List.Perm (insertTok w l) (w :: l) := by
  induction l with
  | nil => rfl
  | cons x xs ih =>
    simp only [insertTok]
    by_cases h : lexLE x w
    · rw [if_pos h]
      exact (ih.cons x).trans (List.Perm.swap w x xs)
    · rw [if_neg h]

theorem sortTokens_aux_perm (ws : List Token) : ∀ acc : List Token,
    List.Perm (ws.foldl (fun acc w => insertTok w acc) acc) (acc ++ ws) := by
  induction ws with
  | nil => intro acc; simp
  | cons w ws ih =>
    intro acc
    exact (ih _).trans (((insertTok_perm w acc).append_right ws).trans List.perm_middle.symm)

theorem sortTokens_perm (ws : List Token) : List.Perm (sortTokens ws) ws := by
  simpa using sortTokens_aux_perm ws []

theorem insertTok_sorted {w : Token} {l : List Token} (h : l.Sorted lexLE) :
    (insertTok w l).Sorted lexLE := by
  induction l with
  | nil => simp [insertTok]
  | cons x xs ih =>
    rw [List.sorted_cons] at h
    simp only [insertTok]
    by_cases hxw : lexLE x w
    · rw [if_pos hxw, List.sorted_cons]
      refine ⟨?_, ih h.2⟩
      intro b hb
      rcases List.mem_cons.mp ((insertTok_perm w xs).mem_iff.mp hb) with rfl | hbm
      · exact hxw
      · exact h.1 b hbm
    · rw [if_neg hxw, List.sorted_cons]
      have hwx : lexLE w x := lexLE_of_not_lexLE hxw
      refine ⟨?_, List.sorted_cons.mpr h⟩
      intro b hb
      rcases List.mem_cons.mp hb with rfl | hbm
      · exact hwx
      · exact lexLE_trans hwx (h.1 b hbm)

theorem sortTokens_sorted (ws : List Token) : (sortTokens ws).Sorted lexLE := by
  have haux : ∀ acc : List Token, acc.Sorted lexLE →
      (ws.foldl (fun acc w => insertTok w acc) acc).Sorted lexLE := by
    induction ws with
    | nil => intro acc hacc; exact hacc
    | cons w ws ih => intro acc hacc; exact ih _ (insertTok_sorted hacc)
  exact haux [] (by simp)

theorem groupLinesGo_flatten (ws : List Token) :
    ∀ (lines : List (List Token)) (current : List Token) (lastTop : Option ℚ),
    (groupLinesGo ws lines current lastTop).flatten = lines.flatten ++ current ++ ws := by
  induction ws with
  | nil =>
    intro lines current lastTop
    by_cases hc : current = []
    · simp [groupLinesGo, hc]
    · simp [groupLinesGo, hc, List.flatten_append]
  | cons w ws ih =>
    intro lines current lastTop
    simp only [groupLinesGo]
    by_cases hb : sameBand lastTop w = true
    · rw [if_pos hb, ih]
      simp
    · rw [if_neg hb, ih]
      simp [List.flatten_append]

theorem groupLines_flatten (ws : List Token) : (groupLines ws).flatten = ws := by
  rw [groupLines, groupLinesGo_flatten]
  simp

theorem sameBand_some_iff {lt : ℚ} {w : Token} :
    sameBand (some lt) w = true ↔ |w.top - lt| ≤ 2 := by
  simp [sameBand, ratAbs_eq_abs]

theorem groupLinesGo_spec (ws : List Token) :
    ∀ (lines : List (List Token)) (current : List Token) (lastTop : Option ℚ),
    (∀ l ∈ lines, l ≠ [] ∧ l.Chain' bandRel) →
    current.Chain' bandRel →
    (lastTop = none → lines = [] ∧ current = []) →
    (∀ lt : ℚ, lastTop = some lt → ∃ z, current.getLast? = some z ∧ z.top = lt) →
    (∀ lt : ℚ, lastTop = some lt → List.Chain' gapRel (lines ++ [current])) →
    (∀ l ∈ groupLinesGo ws lines current lastTop, l ≠ [] ∧ l.Chain' bandRel) ∧
      List.Chain' gapRel (groupLinesGo ws lines current lastTop) := by
  induction ws with
  | nil =>
    intro lines current lastTop h1 h2 h3 h4 h5
    by_cases hc : current = []
    · simp only [groupLinesGo, if_pos hc]
      cases lastTop with
      | none =>
        rcases h3 rfl with ⟨hl, -⟩
        subst hl
        exact ⟨by simp, List.chain'_nil⟩
      | some lt =>
        rcases h4 lt rfl with ⟨z, hz, -⟩
        rw [hc] at hz
        simp at hz
    · simp only [groupLinesGo, if_neg hc]
      cases lastTop with
      | none => exact absurd (h3 rfl).2 hc
      | some lt =>
        refine ⟨?_, h5 lt rfl⟩
        intro l hl
        rcases List.mem_append.mp hl with hm | hm
        · exact h1 l hm
        · rw [List.mem_singleton.mp hm]
          exact ⟨hc, h2⟩
  | cons w ws ih =>
    intro lines current lastTop h1 h2 h3 h4 h5
    simp only [groupLinesGo]
    by_cases hb : sameBand lastTop w = true
    · rw [if_pos hb]
      apply ih
      · exact h1
      · cases lastTop with
        | none =>
          rw [(h3 rfl).2]
          simp
        | some lt =>
          rcases h4 lt rfl with ⟨z, hz, hzt⟩
          rw [List.chain'_append]
          refine ⟨h2, List.chain'_singleton w, ?_⟩
          intro x hx y hy
          rw [hz, Option.mem_def] at hx
          simp only [List.head?_cons, Option.mem_def, Option.some.injEq] at hy
          cases hx
          subst hy
          have hband : |w.top - lt| ≤ 2 := sameBand_some_iff.mp hb
          show |w.top - z.top| ≤ 2
          rw [hzt]
          exact hband
      · intro hno
        exact absurd hno (Option.some_ne_none _)
      · intro lt' hlt'
        refine ⟨w, ?_, ?_⟩
        · rw [List.getLast?_concat]
        · injection hlt'
      · intro lt' hlt'
        cases lastTop with
        | none =>
          rcases h3 rfl with ⟨hl, hcur⟩
          subst hl
          subst hcur
          simp
        | some lt =>
          have hch := h5 lt rfl
          rcases h4 lt rfl with ⟨z, hz, -⟩
          have hcur_ne : current ≠ [] := by
            intro hcn
            rw [hcn] at hz
            simp at hz
          rw [List.chain'_append] at hch ⊢
          refine ⟨hch.1, List.chain'_singleton _, ?_⟩
          intro x hx y hy
          simp only [List.head?_cons, Option.mem_def, Option.some.injEq] at hy
          subst hy
          have hgap : gapRel x current := by
            apply hch.2.2 x hx current
            simp
          intro a b ha hb2
          apply hgap a b ha
          rw [List.head?_append_of_ne_nil current hcur_ne] at hb2
          exact hb2
    · rw [if_neg hb]
      cases lastTop with
      | none => simp [sameBand] at hb
      | some lt =>
        have hgt : 2 < |w.top - lt| := not_le.mp (mt sameBand_some_iff.mpr hb)
        rcases h4 lt rfl with ⟨z, hz, hzt⟩
        have hcur_ne : current ≠ [] := by
          intro hcn
          rw [hcn] at hz
          simp at hz
        apply ih
        · intro l hl
          rcases List.mem_append.mp hl with hm | hm
          · exact h1 l hm
          · rw [List.mem_singleton.mp hm]
            exact ⟨hcur_ne, h2⟩
        · simp
        · intro hno
          exact absurd hno (Option.some_ne_none _)
        · intro lt' hlt'
          refine ⟨w, by simp, ?_⟩
          injection hlt'
        · intro lt' hlt'
          have hch := h5 lt rfl
          rw [List.chain'_append]
          refine ⟨hch, List.chain'_singleton _, ?_⟩
          intro x hx y hy
          simp only [List.head?_cons, Option.mem_def, Option.some.injEq] at hy
          subst hy
          rw [List.getLast?_concat, Option.mem_def, Option.some.injEq] at hx
          subst hx
          intro a b ha hb2
          simp only [List.head?_cons, Option.some.injEq] at hb2
          subst hb2
          rw [hz, Option.some.injEq] at ha
          subst ha
          rw [hzt]
          exact hgt

theorem groupLines_spec (ws : List Token) :
    (∀ l ∈ groupLines ws, l ≠ [] ∧ l.Chain' bandRel) ∧
      List.Chain' gapRel (groupLines ws) := by
  apply groupLinesGo_spec
  · simp
  · simp
  · exact fun _ => ⟨rfl, rfl⟩
  · intro lt h
    cases h
  · intro lt h
    cases h

theorem top_le_getLast : ∀ {l : List Token}, l.Sorted lexLE → ∀ {a z : Token},
    a ∈ l → l.getLast? = some z → a.top ≤ z.top
  | [] => by
    intro _ a z ha
    simp at ha
  | [x] => by
    intro _ a z ha hz
    simp only [List.mem_singleton] at ha
    simp only [List.getLast?_singleton, Option.some.injEq] at hz
    subst ha
    subst hz
    exact le_refl _
  | x :: y :: l => by
    intro hs a z ha hz
    rw [List.getLast?_cons_cons] at hz
    rw [List.sorted_cons] at hs
    rcases List.mem_cons.mp ha with rfl | ha'
    · have hzmem : z ∈ y :: l := by
        rcases List.mem_getLast?_eq_getLast (Option.mem_def.mpr hz) with ⟨h, rfl⟩
        exact List.getLast_mem h
      exact lexLE_top_le (hs.1 z hzmem)
    · exact top_le_getLast hs.2 ha' hz

theorem head_top_le {l : List Token} (hs : l.Sorted lexLE) {a z : Token}
    (ha : a ∈ l) (hz : l.head? = some z) : z.top ≤ a.top := by
  cases l with
  | nil => simp at ha
  | cons x xs =>
    simp only [List.head?_cons, Option.some.injEq] at hz
    subst hz
    rw [List.sorted_cons] at hs
    rcases List.mem_cons.mp ha with rfl | ha'
    · exact le_refl _
    · exact lexLE_top_le (hs.1 a ha')

theorem chain'_strict_top (L : List (List Token))
    (hne : ∀ l ∈ L, l ≠ []) (hsor : ∀ l ∈ L, l.Sorted lexLE)
    (hcross : L.Pairwise (fun l1 l2 => ∀ a ∈ l1, ∀ b ∈ l2, lexLE a b))
    (hgap : List.Chain' gapRel L) :
    List.Chain' (fun l1 l2 => ∀ a ∈ l1, ∀ b ∈ l2, a.top < b.top) L := by
  induction L with
  | nil => exact List.chain'_nil
  | cons l1 L ih =>
    cases L with
    | nil => simp
    | cons l2 Lr =>
      rw [List.chain'_cons] at hgap ⊢
      rw [List.pairwise_cons] at hcross
      refine ⟨?_, ih (fun l hl => hne l (List.mem_cons_of_mem _ hl))
        (fun l hl => hsor l (List.mem_cons_of_mem _ hl)) hcross.2 hgap.2⟩
      intro a ha b hb
      obtain ⟨la, hla⟩ : ∃ la, l1.getLast? = some la := by
        have h1 : l1 ≠ [] := hne l1 (by simp)
        exact ⟨l1.getLast h1, List.getLast?_eq_getLast_of_ne_nil h1⟩
      obtain ⟨hd2, hhd⟩ : ∃ hd2, l2.head? = some hd2 := by
        cases l2 with
        | nil => exact absurd rfl (hne [] (by simp))
        | cons c cs => exact ⟨c, rfl⟩
      have h1top : a.top ≤ la.top := top_le_getLast (hsor l1 (by simp)) ha hla
      have h2top : hd2.top ≤ b.top := head_top_le (hsor l2 (by simp)) hb hhd
      have hlamem : la ∈ l1 := by
        rcases List.mem_getLast?_eq_getLast (Option.mem_def.mpr hla) with ⟨h, rfl⟩
        exact List.getLast_mem h
      have hhdmem : hd2 ∈ l2 := List.mem_of_mem_head? (Option.mem_def.mpr hhd)
      have hcr : la.top ≤ hd2.top :=
        lexLE_top_le (hcross.1 l2 (by simp) la hlamem hd2 hhdmem)
      have hgap1 : 2 < |hd2.top - la.top| := hgap.1 la hd2 hla hhd
      have hnn : (0 : ℚ) ≤ hd2.top - la.top := by linarith
      rw [abs_of_nonneg hnn] at hgap1
      linarith

theorem mostCommon_spec {sizes : List ℚ} (h : sizes ≠ []) :
    mostCommon sizes ∈ sizes ∧
      ∀ y ∈ sizes, sizes.count y ≤ sizes.count (mostCommon sizes) := by
  obtain ⟨m, hm⟩ : ∃ m, List.argmax (fun x => sizes.count x) sizes = some m := by
    cases harg : List.argmax (fun x => sizes.count x) sizes with
    | none => exact absurd (List.argmax_eq_none.mp harg) h
    | some m => exact ⟨m, rfl⟩
  have hmem : m ∈ sizes := List.argmax_mem hm
  have hmax : ∀ y ∈ sizes, sizes.count y ≤ sizes.count m := fun y hy =>
    List.le_of_mem_argmax hy hm
  have hfind : (sizes.find?
      (fun x => decide (∀ y ∈ sizes, sizes.count y ≤ sizes.count x))).isSome = true := by
    rw [List.find?_isSome]
    exact ⟨m, hmem, by simpa using hmax⟩
  obtain ⟨x, hx⟩ := Option.isSome_iff_exists.mp hfind
  have hxm : x ∈ sizes := List.mem_of_find?_eq_some hx
  have hxp : ∀ y ∈ sizes, sizes.count y ≤ sizes.count x := by
    have := List.find?_some hx
    simpa using this
  rw [mostCommon, hx]
  exact ⟨hxm, hxp⟩

/-- C2 amended: after filtering to the dominant size and sorting by (top, x0),
the loop partitions the token sequence into nonempty lines in order; inside a
line every token lies within 2 of the top of the token immediately before it
(the band is re-anchored at each token, not fixed at the first token of the
line), and each new line starts with a token whose top differs by more than 2
from the last token of the previous line. -/
theorem line_membership_chained (words : List Token) :
    (pageLines words).flatten
        = sortTokens (filterMain words (mostCommon (words.filterMap Token.size)))
      ∧ (∀ l ∈ pageLines words, l ≠ [] ∧ l.Chain' bandRel)
      ∧ List.Chain' gapRel (pageLines words) := by
  unfold pageLines
  exact ⟨groupLines_flatten _, (groupLines_spec _).1, (groupLines_spec _).2⟩

/-- C3 amended: the reconstructed lines are strictly ordered by top — every
token of a line has smaller top than every token of the following line — and
inside one line tokens are sorted by the lexicographic (top, x0) key, so x0
alone determines within-line order only among tokens of equal top. -/
theorem line_order_sorted (words : List Token) :
    (∀ l ∈ pageLines words, l.Sorted lexLE)
      ∧ List.Chain' (fun l1 l2 => ∀ a ∈ l1, ∀ b ∈ l2, a.top < b.top)
        (pageLines words) := by
  unfold pageLines
  set S := sortTokens (filterMain words (mostCommon (words.filterMap Token.size))) with hS
  have hpw : List.Pairwise lexLE (groupLines S).flatten := by
    rw [groupLines_flatten]
    exact sortTokens_sorted _
  rw [List.pairwise_flatten] at hpw
  refine ⟨hpw.1, ?_⟩
  exact chain'_strict_top _ (fun l hl => ((groupLines_spec S).1 l hl).1)
    hpw.1 hpw.2 (groupLines_spec S).2

/-- C5: for every page with at least one sized token, the dominant size is a
size present among the page's sized tokens, and no size occurs strictly more
often among them than the dominant one. -/
theorem dominant_size_is_mode (words : List Token)
    (h : words.filterMap Token.size ≠ []) :
    mostCommon (words.filterMap Token.size) ∈ words.filterMap Token.size ∧
      ∀ y ∈ words.filterMap Token.size,
        (words.filterMap Token.size).count y ≤
          (words.filterMap Token.size).count (mostCommon (words.filterMap Token.size)) :=
  mostCommon_spec h

/-- C6: on a page whose sized tokens are nonempty and all carry positive
sizes, a token appears in some reconstructed line iff its stored font size
equals the dominant size exactly; in particular a token without a size never
appears in any reconstructed line. -/
theorem token_in_body_iff_dominant (words : List Token)
    (hpos : ∀ w ∈ words, ∀ s : ℚ, w.size = some s → 0 < s)
    (hne : words.filterMap Token.size ≠ []) :
    ∀ w ∈ words,
      ((∃ l ∈ pageLines words, w ∈ l) ↔
        w.size = some (mostCommon (words.filterMap Token.size)))
      ∧ (w.size = none → ¬ ∃ l ∈ pageLines words, w ∈ l) := by
  intro w hw
  obtain ⟨w', hw', hws'⟩ := List.mem_filterMap.mp (mostCommon_spec hne).1
  have hdompos : 0 < mostCommon (words.filterMap Token.size) := hpos w' hw' _ hws'
  have hmem : (∃ l ∈ pageLines words, w ∈ l) ↔
      w ∈ filterMain words (mostCommon (words.filterMap Token.size)) := by
    rw [← List.mem_flatten]
    unfold pageLines
    rw [groupLines_flatten]
    exact (sortTokens_perm _).mem_iff
  have hfil : w ∈ filterMain words (mostCommon (words.filterMap Token.size)) ↔
      w.size.getD 0 = mostCommon (words.filterMap Token.size) := by
    rw [filterMain, List.mem_filter]
    simp [hw]
  constructor
  · rw [hmem, hfil]
    cases hsz : w.size with
    | none =>
      simp only [Option.getD_none]
      constructor
      · intro h0
        exact absurd h0.symm (ne_of_gt hdompos)
      · intro h
        exact Option.noConfusion h
    | some s =>
      simp only [Option.getD_some, Option.some.injEq]
  · intro hnone
    rw [hmem, hfil, hnone]
    simp only [Option.getD_none]
    intro h0
    exact absurd h0.symm (ne_of_gt hdompos)

/-- C7: a page with no tokens, or with no sized tokens, contributes nothing:
its page text is `none`, and removing the page from the page list leaves the
extracted document text unchanged. -/
theorem empty_page_skipped (words : List Token) (pre post : List (List Token))
    (h : words = [] ∨ words.filterMap Token.size = []) :
    pageText words = none ∧
      extract_main_text (pre ++ words :: post) = extract_main_text (pre ++ post) := by
  have hnone : pageText words = none := by
    rcases h with h | h
    · simp [pageText, h]
    · by_cases hw : words = []
      · simp [pageText, hw]
      · simp [pageText, hw, h]
  refine ⟨hnone, ?_⟩
  rw [extract_main_text, extract_main_text, List.filterMap_append, List.filterMap_append]
  simp [List.filterMap_cons, hnone]

/-- Concrete token: text "a", size 12, top 0, x0 0. -/
def tokA : Token := ⟨"a".toList, some 12, 0, 0⟩

/-- Concrete token: text "b", size 12, top 2, x0 0. -/
def tokB : Token := ⟨"b".toList, some 12, 2, 0⟩

/-- Concrete token: text "c", size 12, top 4, x0 0. -/
def tokC : Token := ⟨"c".toList, some 12, 4, 0⟩

/-- Concrete token: text "d", size 12, top 0, x0 5. -/
def tokD : Token := ⟨"d".toList, some 12, 0, 5⟩

/-- Concrete token: text "e", size 12, top 1, x0 3. -/
def tokE : Token := ⟨"e".toList, some 12, 1, 3⟩

/-- Concrete token: text "f", size 8, top 6, x0 0. -/
def tokF : Token := ⟨"f".toList, some 8, 6, 0⟩

/-- Concrete token with no font size. -/
def tokNoSize : Token := ⟨"g".toList, none, 0, 0⟩

theorem sortFilter_tokABC :
    sortTokens (filterMain [tokA, tokB, tokC]
      (mostCommon ([tokA, tokB, tokC].filterMap Token.size))) = [tokA, tokB, tokC] := by
  decide

theorem groupLines_tokABC : groupLines [tokA, tokB, tokC] = [[tokA, tokB, tokC]] := by
  have h1 : ratAbs (tokB.top - tokA.top) ≤ 2 := by
    norm_num [ratAbs, tokA, tokB]
  have h2 : ratAbs (tokC.top - tokB.top) ≤ 2 := by
    norm_num [ratAbs, tokB, tokC]
  simp [groupLines, groupLinesGo, sameBand, h1, h2]

/-- C2 counterexample: with tops 0, 2, 4 (all at the dominant size) the loop
chains all three tokens into one line, although the third token's top differs
from the line's first token by 4 > 2 — so a token is accepted into a line by
comparison with the immediately preceding token, not with the line's first
token as the claim states. -/
theorem line_band_anchor_cex :
    pageLines [tokA, tokB, tokC] = [[tokA, tokB, tokC]] ∧ 2 < |tokC.top - tokA.top| := by
  constructor
  · unfold pageLines
    rw [sortFilter_tokABC]
    exact groupLines_tokABC
  · norm_num [tokA, tokC]

theorem sortFilter_tokDE :
    sortTokens (filterMain [tokD, tokE]
      (mostCommon ([tokD, tokE].filterMap Token.size))) = [tokD, tokE] := by
  decide

theorem groupLines_tokDE : groupLines [tokD, tokE] = [[tokD, tokE]] := by
  have h1 : ratAbs (tokE.top - tokD.top) ≤ 2 := by
    norm_num [ratAbs, tokD, tokE]
  simp [groupLines, groupLinesGo, sameBand, h1]

/-- C3 counterexample: tokens at (top 0, x0 5) and (top 1, x0 3) end up in one
line in that order, yet the second token has the smaller x0 — within-line
order is decided by the (top, x0) key, not by x0 alone. -/
theorem line_x0_order_cex :
    pageLines [tokD, tokE] = [[tokD, tokE]] ∧ tokE.x0 < tokD.x0 := by
  constructor
  · unfold pageLines
    rw [sortFilter_tokDE]
    exact groupLines_tokDE
  · norm_num [tokD, tokE]

/-- Witness for `dominant_size_is_mode` on a page with sizes 12, 12, 8. -/
theorem dominant_size_is_mode_witness :
    ([tokA, tokB, tokF].filterMap Token.size ≠ []) ∧
    (mostCommon ([tokA, tokB, tokF].filterMap Token.size) ∈
        [tokA, tokB, tokF].filterMap Token.size ∧
      ∀ y ∈ [tokA, tokB, tokF].filterMap Token.size,
        ([tokA, tokB, tokF].filterMap Token.size).count y ≤
          ([tokA, tokB, tokF].filterMap Token.size).count
            (mostCommon ([tokA, tokB, tokF].filterMap Token.size))) :=
  ⟨by decide, dominant_size_is_mode _ (by decide)⟩

/-- Witness for `token_in_body_iff_dominant` on a page with sizes 12, 12, 8. -/
theorem token_in_body_iff_dominant_witness :
    ((∀ w ∈ [tokA, tokB, tokF], ∀ s : ℚ, w.size = some s → 0 < s) ∧
      [tokA, tokB, tokF].filterMap Token.size ≠ []) ∧
    (∀ w ∈ [tokA, tokB, tokF],
      ((∃ l ∈ pageLines [tokA, tokB, tokF], w ∈ l) ↔
        w.size = some (mostCommon ([tokA, tokB, tokF].filterMap Token.size)))
      ∧ (w.size = none → ¬ ∃ l ∈ pageLines [tokA, tokB, tokF], w ∈ l)) := by
  have hpos : ∀ w ∈ [tokA, tokB, tokF], ∀ s : ℚ, w.size = some s → 0 < s := by
    intro w hw s hs
    simp only [List.mem_cons, List.not_mem_nil, or_false] at hw
    rcases hw with rfl | rfl | rfl <;>
      · simp only [tokA, tokB, tokF, Option.some.injEq] at hs
        subst hs
        norm_num
  exact ⟨⟨hpos, by decide⟩, token_in_body_iff_dominant _ hpos (by decide)⟩

/-- Witness for `empty_page_skipped`: a one-token page whose token has no
size is skipped between two normal pages. -/
theorem empty_page_skipped_witness :
    ([tokNoSize] = [] ∨ [tokNoSize].filterMap Token.size = []) ∧
    (pageText [tokNoSize] = none ∧
      extract_main_text ([[tokA, tokB, tokC]] ++ [tokNoSize] :: [[tokD, tokE]]) =
        extract_main_text ([[tokA, tokB, tokC]] ++ [[tokD, tokE]])) :=
  ⟨by decide, empty_page_skipped _ _ _ (by decide)⟩

end PdfSay
